import Mathlib

/-!
Verification of the Recipient Normalization & Batched Dispatch core of the
WhatsApp Massager repository.

The TypeScript source is shallowly embedded over `List Char` (one Lean
character per JS string position).  Strings appearing in concrete test cases
go through `String.data` wrappers.
-/

namespace WhatsappMassager

/-- The separator character class of the regex `[\n,;\t]+` used by
`parseNumbers` to split the raw text. -/
def isSep (c : Char) : Bool :=
  c = '\n' || c = ',' || c = ';' || c = '\t'

/-- JavaScript `String.prototype.split(/[\n,;\t]+/)`: split on maximal runs of
separator characters.  A run of one or more separators acts as one delimiter;
a leading/trailing run contributes a leading/trailing empty token, exactly as
in JS (`",".split(/[,]+/) = ["", ""]`). -/
def splitSeps : List Char → List (List Char)
  | [] => [[]]
  | c :: cs =>
    if isSep c then
      match cs with
      | [] => [] :: splitSeps cs
      | c2 :: _ => if isSep c2 then splitSeps cs else [] :: splitSeps cs
    else
      match splitSeps cs with
      | [] => [[c]]
      | t :: ts' => (c :: t) :: ts'

/-- The ECMAScript whitespace code points stripped by
`String.prototype.trim` (WhiteSpace plus LineTerminator). -/
def jsWhitespace : List Char :=
  [' ', '\t', '\n', '\r', Char.ofNat 0x0b, Char.ofNat 0x0c,
    Char.ofNat 0xa0, Char.ofNat 0x1680,
    Char.ofNat 0x2000, Char.ofNat 0x2001, Char.ofNat 0x2002, Char.ofNat 0x2003,
    Char.ofNat 0x2004, Char.ofNat 0x2005, Char.ofNat 0x2006, Char.ofNat 0x2007,
    Char.ofNat 0x2008, Char.ofNat 0x2009, Char.ofNat 0x200a,
    Char.ofNat 0x2028, Char.ofNat 0x2029, Char.ofNat 0x202f,
    Char.ofNat 0x205f, Char.ofNat 0x3000, Char.ofNat 0xfeff]

/-- Membership in the ECMAScript whitespace class. -/
def isWsJS (c : Char) : Bool :=
  jsWhitespace.contains c

/-- JavaScript `String.prototype.trim`: strip leading and trailing
whitespace. -/
def trim (s : List Char) : List Char :=
  ((s.dropWhile isWsJS).reverse.dropWhile isWsJS).reverse

/-- The candidate-token pipeline of `parseNumbers`:
`text.split(/[\n,;\t]+/).map(s => s.trim()).filter(Boolean)`. -/
def tokenize (text : List Char) : List (List Char) :=
  ((splitSeps text).map trim).filter (fun t => t ≠ [])

/-- `normalizePhone` from the page component:
strip everything but ASCII digits and `+`; reject if nothing is left; if the
result does not start with `+`, drop non-digits; drop all `+`; enforce length
8..15; return the digit string. -/
def normalizePhone (raw : List Char) : Option (List Char) :=
  let digits := raw.filter (fun c => c.isDigit || c = '+')
  if digits = [] then none
  else
    let cleaned := if digits.head? = some '+' then digits else digits.filter Char.isDigit
    let numeric := cleaned.filter (fun c => c ≠ '+')
    if numeric.length < 8 || numeric.length > 15 then none
    else some numeric

/-- The accumulation loop of `parseNumbers`: walk the candidate tokens,
normalize each, and keep a normalized value only when it is truthy
(non-empty) and not yet in the `unique` set.  `seen` is the current content
of the `Set`. -/
def parseLoop : List (List Char) → List (List Char) → List (List Char)
  | [], _ => []
  | c :: cs, seen =>
    match normalizePhone c with
    | some p =>
      if p ≠ [] ∧ p ∉ seen then p :: parseLoop cs (p :: seen)
      else parseLoop cs seen
    | none => parseLoop cs seen

/-- `parseNumbers` from the page component (a `Recipient` is just its `phone`
string, so the result is the list of phone values). -/
def parseNumbers (text : List Char) : List (List Char) :=
  parseLoop (tokenize text) []

/-- String-level wrapper of `parseNumbers` for concrete test inputs. -/
def parseNumbersS (s : String) : List String :=
  (parseNumbers s.data).map (fun l => String.mk l)

/-- Spec-side definition ("the accepted, normalized phone values"): tokens
that normalize to a truthy value, before deduplication. -/
def specAcceptedValues (text : List Char) : List (List Char) :=
  (tokenize text).filterMap (fun c =>
    match normalizePhone c with
    | some p => if p ≠ [] then some p else none
    | none => none)

/-- Spec-side definition of first-occurrence deduplication: keep each value's
first occurrence, drop subsequent duplicates. -/
def firstDedupSpec : List (List Char) → List (List Char)
  | [] => []
  | a :: l => a :: firstDedupSpec (l.filter (fun x => x ≠ a))
termination_by l => l.length
decreasing_by
  exact Nat.lt_succ_of_le (List.length_filter_le _ _)

/-! ### Link construction (`makeWhatsAppLink`) -/

/-- The characters JavaScript `encodeURIComponent` leaves unescaped:
letters, digits, and `- _ . ! ~ * ' ( )`. -/
def isURIUnescaped (c : Char) : Bool :=
  c.isAlpha || c.isDigit ||
  c = '-' || c = '_' || c = '.' || c = '!' || c = '~' || c = '*' ||
  c = Char.ofNat 39 || c = '(' || c = ')'

/-- Upper-case hexadecimal digit of a value `< 16`. -/
def hexDigit (n : Nat) : Char :=
  if n < 10 then Char.ofNat (48 + n) else Char.ofNat (55 + n)

/-- `%XY` percent-escape of one byte. -/
def percentByte (b : Nat) : List Char :=
  ['%', hexDigit (b / 16), hexDigit (b % 16)]

/-- UTF-8 bytes of a Unicode code point. -/
def utf8Bytes (n : Nat) : List Nat :=
  if n < 0x80 then [n]
  else if n < 0x800 then [0xc0 + n / 64, 0x80 + n % 64]
  else if n < 0x10000 then [0xe0 + n / 4096, 0x80 + (n / 64) % 64, 0x80 + n % 64]
  else [0xf0 + n / 262144, 0x80 + (n / 4096) % 64, 0x80 + (n / 64) % 64, 0x80 + n % 64]

/-- JavaScript `encodeURIComponent` on one character. -/
def encodeURIComponentChar (c : Char) : List Char :=
  if isURIUnescaped c then [c] else ((utf8Bytes c.toNat).map percentByte).flatten

/-- JavaScript `encodeURIComponent`. -/
def encodeURIComponent (s : List Char) : List Char :=
  (s.map encodeURIComponentChar).flatten

/-- `makeWhatsAppLink` from the page component. -/
def makeWhatsAppLink (phone message : List Char) : List Char :=
  "https://wa.me/".data ++ phone ++ "?text=".data ++ encodeURIComponent message

/-- String-level wrapper of `makeWhatsAppLink` for concrete test inputs. -/
def makeWhatsAppLinkS (phone message : String) : String :=
  String.mk (makeWhatsAppLink phone.data message.data)

/-! ### Client-direct batching (`openNextBatch` inside `openLinks`) -/

/-- The self-rescheduling batch loop of `openLinks`:
`batch = toOpen.slice(index, index + batchSize)`, open each element of the
batch, `index += batchSize`, and reschedule while `index < toOpen.length`.
`fuel` bounds the number of loop iterations; it is an embedding artifact
(the JS loop carries no fuel), and every theorem below supplies enough fuel
for the loop to stop on its own test. -/
def openNextBatch (toOpen : List α) (batchSize : Nat) : Nat → Nat → List (List α)
  | 0, _ => []
  | fuel + 1, index =>
    let batch := (toOpen.drop index).take batchSize
    if index + batchSize < toOpen.length then
      batch :: openNextBatch toOpen batchSize fuel (index + batchSize)
    else
      [batch]

/-- The cursor update `index += batchSize` of the batch loop. -/
def batchStep (batchSize index : Nat) : Nat :=
  index + batchSize

/-- Observable side effects of `openLinks`. -/
inductive Effect
  | setSending (b : Bool)
  | apiCall (recipients : List (List Char)) (message : List Char)
  | openTab (url : List Char)
deriving DecidableEq

/-- `openLinks` from the page component, as the sequence of side effects it
issues.  The guard `if (!message || recipients.length === 0) return;` yields
the empty effect list; otherwise the `sending` flag is raised, the opens (or
the single API call) are issued, and the `finally` block lowers the flag.
In client-direct mode the loop runs with fuel `recipients.length`, which the
theorems show suffices for every positive batch size. -/
def openLinks (message : List Char) (recipients : List (List Char))
    (useApi : Bool) (batchSize delayMs : Nat) : List Effect :=
  if message = [] || recipients.length = 0 then []
  else
    Effect.setSending true ::
    (if useApi then [Effect.apiCall recipients message]
     else ((openNextBatch recipients batchSize recipients.length 0).flatten).map
        (fun r => Effect.openTab (makeWhatsAppLink r message)))
    ++ [Effect.setSending false]

/-! ### The external send endpoint (`src/app/api/send/route.ts`) -/

/-- One per-recipient result record accumulated by the route handler. -/
structure SendResult where
  «to» : List Char
  ok : Bool
  id : Option (List Char)
  error : Option (List Char)
deriving DecidableEq

/-- Outcome of one outbound `fetch` to the third-party messaging API:
an HTTP response with `res.ok` true (carrying the optional message id),
an HTTP response with `res.ok` false (carrying the response JSON), or a
thrown exception. -/
inductive FetchResult
  | httpOk (id : Option (List Char))
  | httpErr (json : List Char)
  | exn (err : List Char)
deriving DecidableEq

/-- The record the route pushes onto `results` for one recipient, from the
outcome of its outbound call (`try`/`catch` body of the loop). -/
def mkRecord («to» : List Char) : FetchResult → SendResult
  | .httpOk i => ⟨«to», true, i, none⟩
  | .httpErr j => ⟨«to», false, none, some j⟩
  | .exn e => ⟨«to», false, none, some e⟩

/-- The sequential send loop `for (const to of recipients) { ... }`.
The outbound network is modelled by the oracle `api`, indexed by the
position of the call in the sequence and the recipient called. -/
def sendAll (api : Nat → List Char → FetchResult) : Nat → List (List Char) → List SendResult
  | _, [] => []
  | i, «to» :: rest => mkRecord «to» (api i «to») :: sendAll api (i + 1) rest

/-- Process environment of the route: `WHATSAPP_ACCESS_TOKEN` and
`WHATSAPP_PHONE_NUMBER_ID`, each possibly unset. -/
structure Env where
  accessToken : Option (List Char)
  phoneNumberId : Option (List Char)

/-- JavaScript truthiness of `process.env.X`: set and non-empty. -/
def truthyStr : Option (List Char) → Bool
  | none => false
  | some s => s ≠ []

/-- The `recipients` field of the request body as seen after
`body?.recipients || []`: a JSON array, a truthy non-array value, or a
missing/falsy value (which the `|| []` defaults to the empty array). -/
inductive RecipientsField
  | arr (xs : List (List Char))
  | nonArrayTruthy
  | absent

/-- Value of `body?.recipients || []` followed by the `Array.isArray`
test: `some` the array when it is one, `none` for a truthy non-array. -/
def recipientsValue : RecipientsField → Option (List (List Char))
  | .arr xs => some xs
  | .absent => some []
  | .nonArrayTruthy => none

/-- A `NextResponse.json` reply of the route: an error body with a status,
or the 200 body `{ count, results }`. -/
inductive ApiResponse
  | errorResp (status : Nat) (error : List Char)
  | okResp (count : Nat) (results : List SendResult)
deriving DecidableEq

/-- The `POST` handler of `src/app/api/send/route.ts`.  `msgField` is
`body?.message` (`none` when absent, defaulted by `|| ""`). -/
def POST (env : Env) (recField : RecipientsField) (msgField : Option (List Char))
    (api : Nat → List Char → FetchResult) : ApiResponse :=
  let message := msgField.getD []
  match recipientsValue recField with
  | none => .errorResp 400 "Invalid payload".data
  | some recipients =>
    if recipients.length = 0 || message = [] then .errorResp 400 "Invalid payload".data
    else if ¬ truthyStr env.accessToken || ¬ truthyStr env.phoneNumberId then
      .errorResp 501 "Server not configured for API sending".data
    else
      let results := sendAll api 0 recipients
      .okResp (results.filter (fun r => r.ok)).length results

/-- `recips.map(r => r.phone).join("\n")` from `handleFile`
(JavaScript `Array.prototype.join` with separator `"\n"`). -/
def joinNewline : List (List Char) → List Char
  | [] => []
  | [p] => p
  | p :: ps => p ++ '\n' :: joinNewline ps


/-! ## Basic lemmas about the tokenizer -/

theorem splitSeps_sep_nil (c : Char) (h : isSep c = true) :
    splitSeps [c] = [[], []] := by
  simp [splitSeps, h]

theorem splitSeps_sep_sep (c c2 : Char) (cs : List Char)
    (h : isSep c = true) (h2 : isSep c2 = true) :
    splitSeps (c :: c2 :: cs) = splitSeps (c2 :: cs) := by
  conv_lhs => rw [splitSeps]
  simp [h, h2]

theorem splitSeps_sep_nonsep (c c2 : Char) (cs : List Char)
    (h : isSep c = true) (h2 : isSep c2 = false) :
    splitSeps (c :: c2 :: cs) = [] :: splitSeps (c2 :: cs) := by
  conv_lhs => rw [splitSeps]
  simp [h, h2]

theorem splitSeps_ne_nil : ∀ cs : List Char, splitSeps cs ≠ [] := by
  intro cs
  induction cs with
  | nil => simp [splitSeps]
  | cons c cs ih =>
    by_cases hc : isSep c
    · cases cs with
      | nil => rw [splitSeps_sep_nil c hc]; simp
      | cons c2 cs2 =>
        by_cases h2 : isSep c2
        · rw [splitSeps_sep_sep c c2 cs2 hc h2]; exact ih
        · rw [splitSeps_sep_nonsep c c2 cs2 hc (Bool.not_eq_true _ ▸ h2)]; simp
    · simp only [splitSeps, Bool.not_eq_true _ ▸ hc]
      cases hs : splitSeps cs <;> simp

theorem splitSeps_cons_nonsep (c : Char) (cs : List Char) (h : isSep c = false) :
    splitSeps (c :: cs) = (c :: (splitSeps cs).headD []) :: (splitSeps cs).tail := by
  simp only [splitSeps, h]
  cases hs : splitSeps cs with
  | nil => exact absurd hs (splitSeps_ne_nil cs)
  | cons t ts2 => simp

/-! ## Characterizing `normalizePhone` -/

theorem isDigit_plus_false : Char.isDigit (Char.ofNat 43) = false := by decide

/-- In both branches of `normalizePhone`, the `numeric` value is the digit
sub-sequence of the raw token. -/
theorem normalizePhone_numeric (raw : List Char) :
    (if (raw.filter (fun c => c.isDigit || c = '+')).head? = some '+'
      then raw.filter (fun c => c.isDigit || c = '+')
      else (raw.filter (fun c => c.isDigit || c = '+')).filter Char.isDigit).filter
        (fun c => c ≠ '+') = raw.filter Char.isDigit := by
  split
  · rw [List.filter_filter]
    refine List.filter_congr ?_
    intro c _
    by_cases hc : c = '+'
    · subst hc; decide
    · simp [hc]
  · rw [List.filter_filter, List.filter_filter]
    refine List.filter_congr ?_
    intro c _
    by_cases hc : c = '+'
    · subst hc; decide
    · simp [hc]

theorem normalizePhone_eq_some_iff (raw p : List Char) :
    normalizePhone raw = some p ↔
      raw.filter (fun c => c.isDigit || c = '+') ≠ [] ∧
      p = raw.filter Char.isDigit ∧ 8 ≤ p.length ∧ p.length ≤ 15 := by
  have hnum := normalizePhone_numeric raw
  simp only [normalizePhone]
  split
  · rename_i hd
    simp [hd]
  · rename_i hd
    rw [hnum]
    split
    · rename_i hlen
      simp only [Bool.or_eq_true, decide_eq_true_eq] at hlen
      constructor
      · intro h; simp at h
      · rintro ⟨-, rfl, h8, h15⟩; omega
    · rename_i hlen
      simp only [Bool.or_eq_true, decide_eq_true_eq, not_or] at hlen
      push_neg at hlen
      constructor
      · intro h
        simp only [Option.some.injEq] at h
        subst h
        exact ⟨hd, rfl, by omega, by omega⟩
      · rintro ⟨-, rfl, h8, h15⟩
        rfl


/-! ## The parse loop as first-occurrence deduplication -/

theorem parseLoop_eq (cs : List (List Char)) :
    ∀ seen, parseLoop cs seen =
      firstDedupSpec ((cs.filterMap (fun c =>
        match normalizePhone c with
        | some p => if p ≠ [] then some p else none
        | none => none)).filter (fun p => p ∉ seen)) := by
  induction cs with
  | nil => intro seen; simp [parseLoop, firstDedupSpec]
  | cons c cs ih =>
    intro seen
    simp only [parseLoop, List.filterMap_cons]
    cases hn : normalizePhone c with
    | none => simpa using ih seen
    | some p =>
      dsimp only
      by_cases hpe : p = []
      · subst hpe
        simpa using ih seen
      · by_cases hmem : p ∈ seen
        · rw [if_neg (by tauto)]
          rw [if_pos hpe, List.filter_cons_of_neg (by simpa using hmem)]
          exact ih seen
        · rw [if_pos ⟨hpe, hmem⟩]
          rw [if_pos hpe, List.filter_cons_of_pos (by simpa using hmem)]
          rw [firstDedupSpec, ih (p :: seen), List.filter_filter]
          refine congrArg (fun l => p :: firstDedupSpec l) (List.filter_congr ?_)
          intro x _
          by_cases h1 : x = p <;> by_cases h2 : x ∈ seen <;> simp [h1, h2]

theorem parseNumbers_eq_firstDedup (t : List Char) :
    parseNumbers t = firstDedupSpec (specAcceptedValues t) := by
  unfold parseNumbers specAcceptedValues
  rw [parseLoop_eq]
  congr 1
  simp

theorem mem_parseLoop (p : List Char) : ∀ cs seen, p ∈ parseLoop cs seen →
    ∃ c ∈ cs, normalizePhone c = some p := by
  intro cs
  induction cs with
  | nil => intro seen h; simp [parseLoop] at h
  | cons c cs ih =>
    intro seen h
    simp only [parseLoop] at h
    cases hn : normalizePhone c with
    | none =>
      rw [hn] at h
      obtain ⟨c2, hc2, he⟩ := ih _ h
      exact ⟨c2, List.mem_cons_of_mem _ hc2, he⟩
    | some q =>
      rw [hn] at h
      dsimp only at h
      by_cases hq : q ≠ [] ∧ q ∉ seen
      · rw [if_pos hq] at h
        rcases List.mem_cons.mp h with rfl | h2
        · exact ⟨c, List.mem_cons_self _ _, hn⟩
        · obtain ⟨c2, hc2, he⟩ := ih _ h2
          exact ⟨c2, List.mem_cons_of_mem _ hc2, he⟩
      · rw [if_neg hq] at h
        obtain ⟨c2, hc2, he⟩ := ih _ h
        exact ⟨c2, List.mem_cons_of_mem _ hc2, he⟩

/-- C1: the Recipient Parser returns the accepted, normalized phone values
deduplicated by exact string equality, keeping the first occurrence of each
value in first-occurrence order; parsing `"+14155552671\n14155552671"` yields
exactly the one recipient `"14155552671"`. -/
theorem parseNumbers_dedup_first_occurrence :
    (∀ t : List Char, parseNumbers t = firstDedupSpec (specAcceptedValues t)) ∧
    parseNumbersS "+14155552671\n14155552671" = ["14155552671"] := by
  exact ⟨parseNumbers_eq_firstDedup, by decide⟩

/-- C2: every accepted recipient is a string of ASCII digits of length 8..15,
and any token whose digit string falls outside that range is rejected. -/
theorem parseNumbers_digit_bounds :
    (∀ t p, p ∈ parseNumbers t →
      (∀ c ∈ p, c.isDigit = true) ∧ 8 ≤ p.length ∧ p.length ≤ 15) ∧
    (∀ raw : List Char,
      ((raw.filter Char.isDigit).length < 8 ∨ 15 < (raw.filter Char.isDigit).length) →
      normalizePhone raw = none) := by
  constructor
  · intro t p hp
    obtain ⟨c, -, hc⟩ := mem_parseLoop p _ _ hp
    rw [normalizePhone_eq_some_iff] at hc
    obtain ⟨-, rfl, h8, h15⟩ := hc
    refine ⟨?_, h8, h15⟩
    intro ch hch
    exact (List.mem_filter.mp hch).2
  · intro raw h
    cases hn : normalizePhone raw with
    | none => rfl
    | some p =>
      rw [normalizePhone_eq_some_iff] at hn
      obtain ⟨-, rfl, h8, h15⟩ := hn
      omega

/-- Witness for C2 at concrete inputs. -/
theorem parseNumbers_digit_bounds_witness :
    ((∀ c ∈ "14155552671".data, c.isDigit = true) ∧
      8 ≤ "14155552671".data.length ∧ "14155552671".data.length ≤ 15) ∧
    normalizePhone "12345".data = none := by
  constructor
  · exact parseNumbers_digit_bounds.1 "+14155552671".data "14155552671".data (by decide)
  · exact parseNumbers_digit_bounds.2 "12345".data (by decide)


/-! ## Separator invariance (C3) -/

theorem splitSeps_map_congr (f : Char → Char)
    (h1 : ∀ c, isSep (f c) = isSep c) (h2 : ∀ c, isSep c = false → f c = c) :
    ∀ cs : List Char, splitSeps (cs.map f) = splitSeps cs := by
  intro cs
  induction cs with
  | nil => rfl
  | cons c cs ih =>
    by_cases hc : isSep c
    · cases cs with
      | nil =>
        simp only [List.map_cons, List.map_nil]
        rw [splitSeps_sep_nil _ (by rw [h1]; exact hc), splitSeps_sep_nil _ hc]
      | cons c2 cs2 =>
        by_cases hc2 : isSep c2
        · simp only [List.map_cons]
          rw [splitSeps_sep_sep _ _ _ (by rw [h1]; exact hc) (by rw [h1]; exact hc2),
            splitSeps_sep_sep _ _ _ hc hc2]
          simpa using ih
        · have hc2f : isSep c2 = false := Bool.not_eq_true _ ▸ hc2
          simp only [List.map_cons]
          rw [splitSeps_sep_nonsep _ _ _ (by rw [h1]; exact hc) (by rw [h1]; exact hc2f),
            splitSeps_sep_nonsep _ _ _ hc hc2f]
          simpa using ih
    · have hcf : isSep c = false := Bool.not_eq_true _ ▸ hc
      simp only [List.map_cons]
      rw [splitSeps_cons_nonsep _ _ (by rw [h1]; exact hcf),
        splitSeps_cons_nonsep _ _ hcf, h2 c hcf, ih]

/-- C3: replacing one separator (newline, comma, semicolon, tab) by another
yields the same tokenization after trimming, hence the same parse result. -/
theorem tokenize_sep_replacement :
    ∀ (t : List Char) (c1 c2 : Char), isSep c1 = true → isSep c2 = true →
      tokenize (t.map (fun c => if c = c1 then c2 else c)) = tokenize t ∧
      parseNumbers (t.map (fun c => if c = c1 then c2 else c)) = parseNumbers t := by
  intro t c1 c2 h1 h2
  have hsplit : splitSeps (t.map (fun c => if c = c1 then c2 else c)) = splitSeps t := by
    refine splitSeps_map_congr _ ?_ ?_ t
    · intro c
      by_cases hc : c = c1
      · subst hc; simp [h1, h2]
      · simp [hc]
    · intro c hc
      have hne : c ≠ c1 := by
        rintro rfl
        rw [h1] at hc
        cases hc
      simp [hne]
  have htok : tokenize (t.map (fun c => if c = c1 then c2 else c)) = tokenize t := by
    unfold tokenize
    rw [hsplit]
  refine ⟨htok, ?_⟩
  unfold parseNumbers
  rw [htok]

/-- Witness for C3 at a concrete input and separator pair. -/
theorem tokenize_sep_replacement_witness :
    isSep '\n' = true ∧ isSep ',' = true ∧
    (tokenize ("+14155552671\n14155552671".data.map (fun c => if c = '\n' then ',' else c)) =
        tokenize "+14155552671\n14155552671".data ∧
      parseNumbers ("+14155552671\n14155552671".data.map (fun c => if c = '\n' then ',' else c)) =
        parseNumbers "+14155552671\n14155552671".data) :=
  ⟨by decide, by decide,
    tokenize_sep_replacement "+14155552671\n14155552671".data '\n' ',' (by decide) (by decide)⟩

/-- C4: the chat link is the template `https://wa.me/<digits>?text=<encoded>`
with the message percent-encoded as by `encodeURIComponent`; for phone
`"14155552671"` and message `"Hi there!"` the URL is exactly
`"https://wa.me/14155552671?text=Hi%20there!"`. -/
theorem makeWhatsAppLink_template :
    (∀ phone message : List Char,
      makeWhatsAppLink phone message =
        "https://wa.me/".data ++ phone ++ "?text=".data ++ encodeURIComponent message) ∧
    makeWhatsAppLinkS "14155552671" "Hi there!" = "https://wa.me/14155552671?text=Hi%20there!" :=
  ⟨fun _ _ => rfl, by decide⟩

/-- C8: with an empty message or zero recipients, dispatch is refused before
any side effect: `openLinks` issues no effect at all. -/
theorem openLinks_guard (message : List Char) (recipients : List (List Char))
    (useApi : Bool) (batchSize delayMs : Nat)
    (h : message = [] ∨ recipients = []) :
    openLinks message recipients useApi batchSize delayMs = [] := by
  unfold openLinks
  rcases h with rfl | rfl <;> simp

/-- Witness for C8 at concrete inputs. -/
theorem openLinks_guard_witness :
    openLinks [] ["12345678".data] true 10 1200 = [] ∧
    openLinks "hi".data [] false 10 1200 = [] :=
  ⟨openLinks_guard _ _ _ _ _ (Or.inl rfl), openLinks_guard _ _ _ _ _ (Or.inr rfl)⟩


/-! ## Batching lemmas (C5, C9) -/

theorem openNextBatch_ne_nil (l : List α) (b fuel index : Nat) (hf : 1 ≤ fuel) :
    openNextBatch l b fuel index ≠ [] := by
  cases fuel with
  | zero => omega
  | succ fuel =>
    simp only [openNextBatch]
    split <;> simp

theorem openNextBatch_flatten (b : Nat) (l : List α) (hb : 1 ≤ b) :
    ∀ fuel index, index < l.length → l.length ≤ index + fuel * b →
      (openNextBatch l b fuel index).flatten = l.drop index := by
  intro fuel
  induction fuel with
  | zero => intro index h1 h2; omega
  | succ fuel ih =>
    intro index h1 h2
    have h2' : l.length ≤ index + b + fuel * b := by
      rw [Nat.succ_mul] at h2
      omega
    simp only [openNextBatch]
    split
    · rename_i hlt
      rw [List.flatten_cons, ih (index + b) hlt h2']
      have hd : l.drop (index + b) = (l.drop index).drop b := by
        rw [List.drop_drop, Nat.add_comm]
      rw [hd]
      exact List.take_append_drop b (l.drop index)
    · rename_i hge
      have hlen : (l.drop index).length ≤ b := by
        rw [List.length_drop]
        omega
      simp [List.take_of_length_le hlen]

theorem openNextBatch_length (b : Nat) (l : List α) (hb : 1 ≤ b) :
    ∀ fuel index, index < l.length → l.length ≤ index + fuel * b →
      (openNextBatch l b fuel index).length = (l.length - index + b - 1) / b := by
  intro fuel
  induction fuel with
  | zero => intro index h1 h2; omega
  | succ fuel ih =>
    intro index h1 h2
    have h2' : l.length ≤ index + b + fuel * b := by
      rw [Nat.succ_mul] at h2
      omega
    simp only [openNextBatch]
    split
    · rename_i hlt
      rw [List.length_cons, ih (index + b) hlt h2']
      have harith : l.length - index + b - 1 = (l.length - (index + b) + b - 1) + b := by
        omega
      rw [harith, Nat.add_div_right _ (by omega : 0 < b)]
    · rename_i hge
      have h1b : 1 * b ≤ l.length - index + b - 1 := by omega
      have h2b : l.length - index + b - 1 < Nat.succ 1 * b := by
        simp only [Nat.succ_mul]
        omega
      simp [Nat.div_eq_of_lt_le h1b h2b]

theorem openNextBatch_sizes (b : Nat) (l : List α) (hb : 1 ≤ b) :
    ∀ fuel index, index < l.length → l.length ≤ index + fuel * b →
      ∀ t ∈ (openNextBatch l b fuel index).dropLast, t.length = b := by
  intro fuel
  induction fuel with
  | zero => intro index h1 h2; omega
  | succ fuel ih =>
    intro index h1 h2 t ht
    have h2' : l.length ≤ index + b + fuel * b := by
      rw [Nat.succ_mul] at h2
      omega
    simp only [openNextBatch] at ht
    split at ht
    · rename_i hlt
      have hfuel : 1 ≤ fuel := by
        rcases Nat.eq_zero_or_pos fuel with rfl | h
        · omega
        · exact h
      rw [List.dropLast_cons_of_ne_nil (openNextBatch_ne_nil l b fuel (index + b) hfuel)] at ht
      rcases List.mem_cons.mp ht with rfl | ht2
      · rw [List.length_take, List.length_drop]
        omega
      · exact ih (index + b) hlt h2' t ht2
    · simp at ht

theorem openNextBatch_last (b : Nat) (l : List α) (hb : 1 ≤ b) :
    ∀ fuel index, index < l.length → l.length ≤ index + fuel * b →
      (openNextBatch l b fuel index).getLast?.map List.length =
        some (l.length - index - b * ((openNextBatch l b fuel index).length - 1)) := by
  intro fuel
  induction fuel with
  | zero => intro index h1 h2; omega
  | succ fuel ih =>
    intro index h1 h2
    have h2' : l.length ≤ index + b + fuel * b := by
      rw [Nat.succ_mul] at h2
      omega
    simp only [openNextBatch]
    split
    · rename_i hlt
      have hfuel : 1 ≤ fuel := by
        rcases Nat.eq_zero_or_pos fuel with rfl | h
        · omega
        · exact h
      have hne := openNextBatch_ne_nil l b fuel (index + b) hfuel
      rcases hrest : openNextBatch l b fuel (index + b) with _ | ⟨r, rest⟩
      · exact absurd hrest hne
      · rw [List.getLast?_cons_cons, ← hrest, ih (index + b) hlt h2']
        have hlenpos : 1 ≤ (openNextBatch l b fuel (index + b)).length := by
          rw [hrest]
          simp
        congr 1
        rw [List.length_cons]
        have hmul : b * ((openNextBatch l b fuel (index + b)).length + 1 - 1) =
            b * ((openNextBatch l b fuel (index + b)).length - 1) + b := by
          have hl : (openNextBatch l b fuel (index + b)).length + 1 - 1 =
              ((openNextBatch l b fuel (index + b)).length - 1) + 1 := by omega
          rw [hl, Nat.mul_succ]
        rw [hmul]
        omega
    · rename_i hge
      have hlen : (List.take b (List.drop index l)).length = l.length - index := by
        rw [List.length_take, List.length_drop]
        omega
      simp [hlen]

/-- C5: in client-direct mode the dispatcher issues exactly one open per
recipient, grouped into `ceil(n/b)` consecutive batches of size `b` except a
smaller final batch, covering the recipient list in order; with 25 recipients
and batch size 10 the batch sizes are 10, 10, 5. -/
theorem openNextBatch_batches :
    (∀ (l : List (List Char)) (b : Nat), 1 ≤ b → l ≠ [] →
      (openNextBatch l b l.length 0).flatten = l ∧
      (openNextBatch l b l.length 0).length = (l.length + b - 1) / b ∧
      (∀ t ∈ (openNextBatch l b l.length 0).dropLast, t.length = b) ∧
      (openNextBatch l b l.length 0).getLast?.map List.length =
        some (l.length - b * ((openNextBatch l b l.length 0).length - 1))) ∧
    (openNextBatch (List.range 25) 10 25 0).map List.length = [10, 10, 5] := by
  constructor
  · intro l b hb hl
    have h1 : 0 < l.length := List.length_pos.mpr hl
    have h2 : l.length ≤ 0 + l.length * b := by
      have := Nat.le_mul_of_pos_right l.length hb
      omega
    refine ⟨?_, ?_, openNextBatch_sizes b l hb l.length 0 h1 h2, ?_⟩
    · simpa using openNextBatch_flatten b l hb l.length 0 h1 h2
    · simpa using openNextBatch_length b l hb l.length 0 h1 h2
    · simpa using openNextBatch_last b l hb l.length 0 h1 h2
  · decide

/-- Witness for C5 at a concrete recipient list and batch size. -/
theorem openNextBatch_batches_witness :
    (openNextBatch [['a'], ['b'], ['c']] 2 3 0).flatten = [['a'], ['b'], ['c']] ∧
    (openNextBatch [['a'], ['b'], ['c']] 2 3 0).length = 2 ∧
    (∀ t ∈ (openNextBatch [['a'], ['b'], ['c']] 2 3 0).dropLast, t.length = 2) ∧
    (openNextBatch [['a'], ['b'], ['c']] 2 3 0).getLast?.map List.length =
      some (3 - 2 * ((openNextBatch [['a'], ['b'], ['c']] 2 3 0).length - 1)) := by
  have h := openNextBatch_batches.1 [['a'], ['b'], ['c']] 2 (by omega) (by simp)
  simpa using h


/-! ## Loop termination and the batch-size-0 edge case (C9) -/

theorem batchStep_iterate (b : Nat) : ∀ j, (batchStep b)^[j] 0 = j * b := by
  intro j
  induction j with
  | zero => simp
  | succ j ih =>
    rw [Function.iterate_succ_apply', ih, batchStep, Nat.succ_mul]

/-- C9: with batch size `b ≥ 1` the batch loop terminates after
`ceil(n/b)` iterations (the cursor is below `n` at the start of each of the
`ceil(n/b)` iterations and at or past `n` afterwards, and the loop with
sufficient fuel indeed produces `ceil(n/b)` batches); with batch size 0 the
cursor never advances, so the continue test `index < n` holds at every
iteration and the loop never terminates. -/
theorem batch_loop_iterations :
    (∀ (l : List (List Char)) (b : Nat), 1 ≤ b → l ≠ [] →
      (openNextBatch l b l.length 0).length = (l.length + b - 1) / b ∧
      (∀ j < (l.length + b - 1) / b, (batchStep b)^[j] 0 < l.length) ∧
      l.length ≤ (batchStep b)^[(l.length + b - 1) / b] 0) ∧
    (∀ n k, 0 < n → (batchStep 0)^[k] 0 = 0 ∧ (batchStep 0)^[k] 0 < n) := by
  constructor
  · intro l b hb hl
    have h1 : 0 < l.length := List.length_pos.mpr hl
    have h2 : l.length ≤ 0 + l.length * b := by
      have := Nat.le_mul_of_pos_right l.length hb
      omega
    refine ⟨by simpa using openNextBatch_length b l hb l.length 0 h1 h2, ?_, ?_⟩
    · intro j hj
      rw [batchStep_iterate]
      have hceil : ((l.length + b - 1) / b) * b ≤ l.length + b - 1 :=
        Nat.div_mul_le_self _ _
      have hjb : j * b + b ≤ ((l.length + b - 1) / b) * b := by
        have hj1 : j + 1 ≤ (l.length + b - 1) / b := hj
        calc j * b + b = (j + 1) * b := by rw [Nat.succ_mul]
          _ ≤ ((l.length + b - 1) / b) * b := Nat.mul_le_mul_right b hj1
      omega
    · rw [batchStep_iterate]
      have hdm := Nat.div_add_mod (l.length + b - 1) b
      have hlt : (l.length + b - 1) % b < b := Nat.mod_lt _ (by omega)
      have hcm : b * ((l.length + b - 1) / b) = ((l.length + b - 1) / b) * b :=
        Nat.mul_comm _ _
      omega
  · intro n k h
    have hfix : (batchStep 0)^[k] 0 = 0 := Function.iterate_fixed rfl k
    exact ⟨hfix, by omega⟩

/-- Witness for C9 at a concrete recipient list, batch size, and list length. -/
theorem batch_loop_iterations_witness :
    ((openNextBatch [['a'], ['b'], ['c']] 2 3 0).length = 2 ∧
      (∀ j < 2, (batchStep 2)^[j] 0 < 3) ∧
      3 ≤ (batchStep 2)^[2] 0) ∧
    ((batchStep 0)^[5] 0 = 0 ∧ (batchStep 0)^[5] 0 < 4) := by
  constructor
  · have h := batch_loop_iterations.1 [['a'], ['b'], ['c']] 2 (by omega) (by simp)
    simpa using h
  · exact batch_loop_iterations.2 4 5 (by omega)


/-! ## The external send endpoint (C6, C7) -/

theorem mkRecord_to (t : List Char) (f : FetchResult) : (mkRecord t f).«to» = t := by
  cases f <;> rfl

theorem sendAll_map_to (api : Nat → List Char → FetchResult) :
    ∀ (rs : List (List Char)) (i0 : Nat),
      (sendAll api i0 rs).map (fun r => r.«to») = rs := by
  intro rs
  induction rs with
  | nil => intro i0; rfl
  | cons r rs ih =>
    intro i0
    simp [sendAll, mkRecord_to, ih (i0 + 1)]

theorem sendAll_get? (api : Nat → List Char → FetchResult) :
    ∀ (rs : List (List Char)) (i0 i : Nat),
      (sendAll api i0 rs).get? i = (rs.get? i).map (fun t => mkRecord t (api (i0 + i) t)) := by
  intro rs
  induction rs with
  | nil => intro i0 i; simp [sendAll]
  | cons r rs ih =>
    intro i0 i
    cases i with
    | zero => simp [sendAll]
    | succ i =>
      have harith : i0 + (i + 1) = (i0 + 1) + i := by omega
      simp only [sendAll, List.get?_cons_succ, ih (i0 + 1) i, harith]

/-- C6: an empty (or non-array) recipients list or an empty message yields
status 400 with a non-empty error string, and a valid payload without
configured credentials yields status 501 with a non-empty error string; in
both cases the response does not depend on the outbound API at all (no
outbound call, no partial send). -/
theorem post_validation :
    (∀ (env : Env) (rf : RecipientsField) (mf : Option (List Char))
        (api api2 : Nat → List Char → FetchResult),
      (recipientsValue rf = none ∨ recipientsValue rf = some [] ∨ mf.getD [] = []) →
      POST env rf mf api = ApiResponse.errorResp 400 "Invalid payload".data ∧
      "Invalid payload".data ≠ [] ∧
      POST env rf mf api = POST env rf mf api2) ∧
    (∀ (env : Env) (rf : RecipientsField) (mf : Option (List Char))
        (api api2 : Nat → List Char → FetchResult) (rs : List (List Char)),
      recipientsValue rf = some rs → rs ≠ [] → mf.getD [] ≠ [] →
      (truthyStr env.accessToken = false ∨ truthyStr env.phoneNumberId = false) →
      POST env rf mf api = ApiResponse.errorResp 501 "Server not configured for API sending".data ∧
      "Server not configured for API sending".data ≠ [] ∧
      POST env rf mf api = POST env rf mf api2) := by
  constructor
  · intro env rf mf api api2 h
    have hmain : ∀ a : Nat → List Char → FetchResult,
        POST env rf mf a = ApiResponse.errorResp 400 "Invalid payload".data := by
      intro a
      unfold POST
      rcases h with h | h | h
      · rw [h]
      · rw [h]
        simp
      · cases hrv : recipientsValue rf with
        | none => rfl
        | some rs => simp [h]
    exact ⟨hmain api, by decide, by rw [hmain api, hmain api2]⟩
  · intro env rf mf api api2 rs hrs hne hmsg hcred
    have hmain : ∀ a : Nat → List Char → FetchResult,
        POST env rf mf a =
          ApiResponse.errorResp 501 "Server not configured for API sending".data := by
      intro a
      unfold POST
      rw [hrs]
      have hlen : rs.length ≠ 0 := by
        simpa [List.length_eq_zero] using hne
      rcases hcred with h | h <;> simp [hlen, hmsg, h]
    exact ⟨hmain api, by decide, by rw [hmain api, hmain api2]⟩

/-- Witness for C6 at concrete requests. -/
theorem post_validation_witness :
    (POST ⟨some "t".data, some "p".data⟩ (RecipientsField.arr []) (some "x".data)
        (fun _ _ => FetchResult.httpOk none) =
      ApiResponse.errorResp 400 "Invalid payload".data) ∧
    (POST ⟨none, none⟩ (RecipientsField.arr ["12345678".data]) (some "x".data)
        (fun _ _ => FetchResult.httpOk none) =
      ApiResponse.errorResp 501 "Server not configured for API sending".data) := by
  constructor
  · exact (post_validation.1 ⟨some "t".data, some "p".data⟩ (RecipientsField.arr [])
      (some "x".data) (fun _ _ => FetchResult.httpOk none) (fun _ _ => FetchResult.httpOk none)
      (Or.inr (Or.inl rfl))).1
  · exact (post_validation.2 ⟨none, none⟩ (RecipientsField.arr ["12345678".data])
      (some "x".data) (fun _ _ => FetchResult.httpOk none) (fun _ _ => FetchResult.httpOk none)
      ["12345678".data] rfl (by simp) (by simp) (Or.inl rfl)).1

/-- C7: for a valid configured request, the endpoint produces exactly one
result record per recipient in input order, each record determined by that
recipient's own outbound call (so one failure does not halt the others), and
the returned count is the number of records with `ok = true`. -/
theorem post_sequential_results :
    ∀ (env : Env) (rf : RecipientsField) (mf : Option (List Char))
      (api : Nat → List Char → FetchResult) (rs : List (List Char)),
      recipientsValue rf = some rs → rs ≠ [] → mf.getD [] ≠ [] →
      truthyStr env.accessToken = true → truthyStr env.phoneNumberId = true →
      ∃ results : List SendResult,
        POST env rf mf api = ApiResponse.okResp ((results.filter (fun r => r.ok)).length) results ∧
        results.map (fun r => r.«to») = rs ∧
        (∀ i, results.get? i = (rs.get? i).map (fun t => mkRecord t (api i t))) := by
  intro env rf mf api rs hrs hne hmsg hat hpn
  refine ⟨sendAll api 0 rs, ?_, sendAll_map_to api rs 0,
    fun i => by simpa using sendAll_get? api rs 0 i⟩
  unfold POST
  rw [hrs]
  have hlen : rs.length ≠ 0 := by
    simpa [List.length_eq_zero] using hne
  simp [hlen, hmsg, hat, hpn]

/-- Witness for C7: one recipient whose outbound call fails. -/
theorem post_sequential_results_witness :
    ∃ results : List SendResult,
      POST ⟨some "t".data, some "p".data⟩ (RecipientsField.arr ["12345678".data])
          (some "hi".data) (fun _ _ => FetchResult.httpErr "boom".data) =
        ApiResponse.okResp ((results.filter (fun r => r.ok)).length) results ∧
      results.map (fun r => r.«to») = ["12345678".data] ∧
      (∀ i, results.get? i = (["12345678".data].get? i).map
        (fun t => mkRecord t ((fun _ _ => FetchResult.httpErr "boom".data) i t))) :=
  post_sequential_results ⟨some "t".data, some "p".data⟩
    (RecipientsField.arr ["12345678".data]) (some "hi".data)
    (fun _ _ => FetchResult.httpErr "boom".data) ["12345678".data]
    rfl (by simp) (by simp) (by decide) (by decide)


/-! ## Round trip of parse and join (C10) -/

theorem digit_not_sep (c : Char) (h : c.isDigit = true) : isSep c = false := by
  cases hs : isSep c
  · rfl
  · exfalso
    simp only [isSep, Bool.or_eq_true, decide_eq_true_eq] at hs
    rcases hs with ((rfl | rfl) | rfl) | rfl <;> exact absurd h (by decide)

theorem digit_not_ws (c : Char) (h : c.isDigit = true) : isWsJS c = false := by
  cases hs : isWsJS c
  · rfl
  · exfalso
    have hmem : c ∈ jsWhitespace := by
      simpa [isWsJS] using hs
    simp only [jsWhitespace, List.mem_cons, List.not_mem_nil, or_false] at hmem
    rcases hmem with rfl | rfl | rfl | rfl | rfl | rfl | rfl | rfl | rfl | rfl | rfl | rfl |
      rfl | rfl | rfl | rfl | rfl | rfl | rfl | rfl | rfl | rfl | rfl | rfl | rfl <;>
      exact absurd h (by decide)

theorem dropWhile_eq_self_of (q : Char → Bool) (p : List Char)
    (h : ∀ c ∈ p, q c = false) : p.dropWhile q = p := by
  cases p with
  | nil => rfl
  | cons a l =>
    rw [List.dropWhile_cons, h a (by simp)]
    simp

theorem trim_eq_self (p : List Char) (h : ∀ c ∈ p, isWsJS c = false) : trim p = p := by
  unfold trim
  rw [dropWhile_eq_self_of _ p h,
    dropWhile_eq_self_of _ p.reverse (fun c hc => h c (List.mem_reverse.mp hc)),
    List.reverse_reverse]

theorem splitSeps_no_sep (p : List Char) (h : ∀ c ∈ p, isSep c = false) :
    splitSeps p = [p] := by
  induction p with
  | nil => rfl
  | cons c cs ih =>
    rw [splitSeps_cons_nonsep c cs (h c (by simp)),
      ih (fun x hx => h x (List.mem_cons_of_mem _ hx))]
    rfl

theorem splitSeps_append (p : List Char) (h : ∀ c ∈ p, isSep c = false) :
    ∀ cs, splitSeps (p ++ cs) = (p ++ (splitSeps cs).headD []) :: (splitSeps cs).tail := by
  induction p with
  | nil =>
    intro cs
    cases hs : splitSeps cs with
    | nil => exact absurd hs (splitSeps_ne_nil cs)
    | cons t ts => simp [hs]
  | cons c p ih =>
    intro cs
    rw [List.cons_append, splitSeps_cons_nonsep c (p ++ cs) (h c (by simp)),
      ih (fun x hx => h x (List.mem_cons_of_mem _ hx)) cs]
    rfl

theorem tokenize_joinNewline : ∀ ps : List (List Char),
    (∀ p ∈ ps, p ≠ [] ∧ ∀ c ∈ p, isSep c = false ∧ isWsJS c = false) →
    tokenize (joinNewline ps) = ps := by
  intro ps
  induction ps with
  | nil => intro _; rfl
  | cons p ps ih =>
    intro h
    obtain ⟨hpne, hp⟩ := h p (List.mem_cons_self _ _)
    have hpsep : ∀ c ∈ p, isSep c = false := fun c hc => (hp c hc).1
    have hpws : ∀ c ∈ p, isWsJS c = false := fun c hc => (hp c hc).2
    cases ps with
    | nil =>
      show tokenize p = [p]
      unfold tokenize
      rw [splitSeps_no_sep p hpsep]
      simp [trim_eq_self p hpws, hpne]
    | cons p2 ps2 =>
      obtain ⟨hp2ne, hp2⟩ := h p2 (by simp)
      obtain ⟨q, hq⟩ : ∃ q, joinNewline (p2 :: ps2) = p2 ++ q := by
        cases ps2 with
        | nil => exact ⟨[], by simp [joinNewline]⟩
        | cons p3 ps3 => exact ⟨'\n' :: joinNewline (p3 :: ps3), rfl⟩
      obtain ⟨d, p2t, rfl⟩ : ∃ d p2t, p2 = d :: p2t := by
        cases p2 with
        | nil => exact absurd rfl hp2ne
        | cons d p2t => exact ⟨d, p2t, rfl⟩
      have hdsep : isSep d = false := (hp2 d (by simp)).1
      have hjoin : joinNewline (p :: (d :: p2t) :: ps2) =
          p ++ '\n' :: joinNewline ((d :: p2t) :: ps2) := rfl
      have hrest : joinNewline ((d :: p2t) :: ps2) = d :: (p2t ++ q) := by
        rw [hq, List.cons_append]
      have hsplit2 : splitSeps ('\n' :: joinNewline ((d :: p2t) :: ps2)) =
          [] :: splitSeps (joinNewline ((d :: p2t) :: ps2)) := by
        rw [hrest]
        exact splitSeps_sep_nonsep '\n' d (p2t ++ q) (by decide) hdsep
      have hsplit : splitSeps (joinNewline (p :: (d :: p2t) :: ps2)) =
          p :: splitSeps (joinNewline ((d :: p2t) :: ps2)) := by
        rw [hjoin, splitSeps_append p hpsep ('\n' :: joinNewline ((d :: p2t) :: ps2)), hsplit2]
        simp
      unfold tokenize at hsplit ⊢
      rw [hsplit]
      simp only [List.map_cons, List.filter_cons, trim_eq_self p hpws]
      rw [if_pos (by simpa using hpne)]
      congr 1
      exact ih (fun x hx => h x (List.mem_cons_of_mem _ hx))

theorem filterMap_id_of (f : List Char → Option (List Char)) :
    ∀ l, (∀ x ∈ l, f x = some x) → List.filterMap f l = l := by
  intro l
  induction l with
  | nil => intro _; rfl
  | cons a l ih =>
    intro h
    rw [List.filterMap_cons, h a (by simp), ih (fun x hx => h x (List.mem_cons_of_mem _ hx))]

theorem firstDedupSpec_subset : ∀ (n : Nat) (l : List (List Char)), l.length ≤ n →
    ∀ x ∈ firstDedupSpec l, x ∈ l := by
  intro n
  induction n with
  | zero =>
    intro l h
    cases l with
    | nil => simp [firstDedupSpec]
    | cons a l => simp at h
  | succ n ih =>
    intro l h
    cases l with
    | nil => simp [firstDedupSpec]
    | cons a l =>
      intro x hx
      rw [firstDedupSpec] at hx
      rcases List.mem_cons.mp hx with rfl | hx2
      · exact List.mem_cons_self _ _
      · have hsub := ih (l.filter (fun x => x ≠ a))
          (le_trans (List.length_filter_le _ _) (by simpa using h)) x hx2
        exact List.mem_cons_of_mem _ (List.mem_of_mem_filter hsub)

theorem firstDedupSpec_nodup : ∀ (n : Nat) (l : List (List Char)), l.length ≤ n →
    (firstDedupSpec l).Nodup := by
  intro n
  induction n with
  | zero =>
    intro l h
    cases l with
    | nil => simp [firstDedupSpec]
    | cons a l => simp at h
  | succ n ih =>
    intro l h
    cases l with
    | nil => simp [firstDedupSpec]
    | cons a l =>
      rw [firstDedupSpec]
      refine List.nodup_cons.mpr ⟨?_, ih _ (le_trans (List.length_filter_le _ _) (by simpa using h))⟩
      intro hmem
      have := firstDedupSpec_subset (l.filter (fun x => x ≠ a)).length _ le_rfl a hmem
      have := List.of_mem_filter this
      simp at this

theorem firstDedupSpec_eq_self : ∀ (n : Nat) (l : List (List Char)), l.length ≤ n →
    l.Nodup → firstDedupSpec l = l := by
  intro n
  induction n with
  | zero =>
    intro l h _
    cases l with
    | nil => simp [firstDedupSpec]
    | cons a l => simp at h
  | succ n ih =>
    intro l h hnd
    cases l with
    | nil => simp [firstDedupSpec]
    | cons a l =>
      rw [firstDedupSpec]
      have hfa : l.filter (fun x => x ≠ a) = l := by
        refine List.filter_eq_self.mpr ?_
        intro x hx
        simp only [ne_eq, decide_eq_true_eq]
        intro he
        exact (List.nodup_cons.mp hnd).1 (he ▸ hx)
      rw [hfa, ih l (by simpa using h) (List.nodup_cons.mp hnd).2]

/-- C10: joining the parsed phone values with newlines and parsing again
yields exactly the same recipient list (the round trip the file-upload path
relies on). -/
theorem parseNumbers_roundtrip :
    ∀ t : List Char, parseNumbers (joinNewline (parseNumbers t)) = parseNumbers t := by
  intro t
  have hmem : ∀ p ∈ parseNumbers t, normalizePhone p = some p ∧ p ≠ [] ∧
      (∀ c ∈ p, isSep c = false ∧ isWsJS c = false) := by
    intro p hp
    obtain ⟨c, -, hc⟩ := mem_parseLoop p (tokenize t) [] hp
    rw [normalizePhone_eq_some_iff] at hc
    obtain ⟨-, hpe, h8, h15⟩ := hc
    have hdig : ∀ ch ∈ p, ch.isDigit = true := by
      intro ch hch
      rw [hpe] at hch
      exact (List.mem_filter.mp hch).2
    have hne : p ≠ [] := by
      intro h0
      rw [h0] at h8
      simp at h8
    refine ⟨?_, hne, fun ch hch => ⟨digit_not_sep ch (hdig ch hch), digit_not_ws ch (hdig ch hch)⟩⟩
    rw [normalizePhone_eq_some_iff]
    have hself : p.filter Char.isDigit = p :=
      List.filter_eq_self.mpr (fun ch hch => hdig ch hch)
    refine ⟨?_, hself.symm, h8, h15⟩
    rw [List.filter_eq_self.mpr (fun ch hch => by simp [hdig ch hch])]
    exact hne
  have htok : tokenize (joinNewline (parseNumbers t)) = parseNumbers t :=
    tokenize_joinNewline _ (fun p hp => ⟨(hmem p hp).2.1, (hmem p hp).2.2⟩)
  have hnodup : (parseNumbers t).Nodup := by
    rw [parseNumbers_eq_firstDedup]
    exact firstDedupSpec_nodup _ _ le_rfl
  calc parseNumbers (joinNewline (parseNumbers t))
      = parseLoop (tokenize (joinNewline (parseNumbers t))) [] := rfl
    _ = parseLoop (parseNumbers t) [] := by rw [htok]
    _ = parseNumbers t := by
        rw [parseLoop_eq]
        have hfm : (parseNumbers t).filterMap (fun c =>
            match normalizePhone c with
            | some p => if p ≠ [] then some p else none
            | none => none) = parseNumbers t := by
          refine filterMap_id_of _ _ ?_
          intro x hx
          rw [(hmem x hx).1]
          simp [(hmem x hx).2.1]
        rw [show ((parseNumbers t).filterMap (fun c =>
            match normalizePhone c with
            | some p => if p ≠ [] then some p else none
            | none => none)).filter (fun p => p ∉ ([] : List (List Char))) =
            (parseNumbers t).filterMap (fun c =>
            match normalizePhone c with
            | some p => if p ≠ [] then some p else none
            | none => none) from by simp]
        rw [hfm]
        exact firstDedupSpec_eq_self _ _ le_rfl hnodup

end WhatsappMassager
